import Mathlib

/-!
Verification of the point–segment and point–triangle squared-distance kernel
(`src/vec3.c`, functions `__gjkVec3PointSegmentDist2`,
`gjkVec3PointSegmentDist2` and `gjkVec3PointTriDist2`).

The embedding works over exact rational arithmetic.  The 3D vector layer
(`vec3.h`) is not part of the given sources, so its operations and the two
epsilon-aware comparison predicates are modelled from the specification; the
global numeric tolerance appears as an explicit parameter `eps`.  The two
distance routines themselves are translated line by line from `vec3.c`.
The nullable witness out-parameter is modelled by a `Bool` flag selecting the
call shape and an `Option Vec3` result component, which keeps both arithmetic
paths of the C code (witness and no-witness) distinct in the model.
-/

/-- A 3-component rational vector (models `gjk_vec3_t`). -/
structure Vec3 where
  x : ℚ
  y : ℚ
  z : ℚ
deriving DecidableEq

/-- Modelled from the spec: vector subtraction, `gjkVec3Sub2(d, a, b)` stores
`a - b` into `d`. -/
def gjkVec3Sub2 (a b : Vec3) : Vec3 :=
  ⟨a.x - b.x, a.y - b.y, a.z - b.z⟩

/-- Modelled from the spec: vector addition (`gjkVec3Add(v, w)` adds `w`
into `v`). -/
def gjkVec3Add (a b : Vec3) : Vec3 :=
  ⟨a.x + b.x, a.y + b.y, a.z + b.z⟩

/-- Modelled from the spec: scalar scaling (`gjkVec3Scale(d, k)`). -/
def gjkVec3Scale (a : Vec3) (k : ℚ) : Vec3 :=
  ⟨k * a.x, k * a.y, k * a.z⟩

/-- Modelled from the spec: dot product (`gjkVec3Dot`). -/
def gjkVec3Dot (a b : Vec3) : ℚ :=
  a.x * b.x + a.y * b.y + a.z * b.z

/-- Modelled from the spec: squared length (`gjkVec3Len2`). -/
def gjkVec3Len2 (a : Vec3) : ℚ :=
  gjkVec3Dot a a

/-- Modelled from the spec: squared distance between two points
(`gjkVec3Dist2`). -/
def gjkVec3Dist2 (a b : Vec3) : ℚ :=
  gjkVec3Len2 (gjkVec3Sub2 a b)

/-- Modelled from the spec: the epsilon-aware "is approximately zero"
predicate (`gjkIsZero`), parameterized by the global tolerance `eps`. -/
def gjkIsZero (eps val : ℚ) : Prop :=
  |val| < eps

instance (eps val : ℚ) : Decidable (gjkIsZero eps val) := by
  unfold gjkIsZero; infer_instance

/-- Modelled from the spec: the epsilon-aware "is approximately equal to"
predicate (`gjkEq`), parameterized by the global tolerance `eps`. -/
def gjkEq (eps a b : ℚ) : Prop :=
  |a - b| < eps

instance (eps a b : ℚ) : Decidable (gjkEq eps a b) := by
  unfold gjkEq; infer_instance

/-- Function `__gjkVec3PointSegmentDist2` from `vec3.c` (lines 31–86).  Returns the
squared distance together with the witness (`some` exactly when the caller
passed a non-null witness pointer, modelled by `wantWitness`). -/
def __gjkVec3PointSegmentDist2 (eps : ℚ) (P x0 b : Vec3) (wantWitness : Bool) :
    ℚ × Option Vec3 :=
  let d := gjkVec3Sub2 b x0
  let a := gjkVec3Sub2 x0 P
  let t := (-1 * gjkVec3Dot a d) / gjkVec3Len2 d
  if t < 0 ∨ gjkIsZero eps t then
    (gjkVec3Dist2 x0 P, if wantWitness then some x0 else none)
  else if t > 1 ∨ gjkEq eps t 1 then
    (gjkVec3Dist2 b P, if wantWitness then some b else none)
  else
    if wantWitness then
      let w := gjkVec3Add (gjkVec3Scale d t) x0
      (gjkVec3Dist2 w P, some w)
    else
      (gjkVec3Len2 (gjkVec3Add (gjkVec3Scale d t) a), none)

/-- The unconstrained segment minimizer `t` computed at lines 60–61 of
`vec3.c` (`t = -1 * dot(a, d); t /= len2(d)`). -/
def seg_t (P x0 b : Vec3) : ℚ :=
  let d := gjkVec3Sub2 b x0
  let a := gjkVec3Sub2 x0 P
  (-1 * gjkVec3Dot a d) / gjkVec3Len2 d

/-- Function `gjkVec3PointSegmentDist2` from `vec3.c` (lines 88–93): the public entry
point, which just forwards to `__gjkVec3PointSegmentDist2`. -/
def gjkVec3PointSegmentDist2 (eps : ℚ) (P x0 b : Vec3) (wantWitness : Bool) :
    ℚ × Option Vec3 :=
  __gjkVec3PointSegmentDist2 eps P x0 b wantWitness

/-- The unconstrained plane minimizer coordinate `s` computed at line 125 of
`vec3.c`. -/
def tri_s (P x0 B C : Vec3) : ℚ :=
  let d1 := gjkVec3Sub2 B x0
  let d2 := gjkVec3Sub2 C x0
  let a := gjkVec3Sub2 x0 P
  let v := gjkVec3Dot d1 d1
  let w := gjkVec3Dot d2 d2
  let p := gjkVec3Dot a d1
  let q := gjkVec3Dot a d2
  let r := gjkVec3Dot d1 d2
  (q * r - w * p) / (w * v - r * r)

/-- The unconstrained plane minimizer coordinate `t` computed at line 126 of
`vec3.c`. -/
def tri_t (P x0 B C : Vec3) : ℚ :=
  let d2 := gjkVec3Sub2 C x0
  let a := gjkVec3Sub2 x0 P
  let w := gjkVec3Dot d2 d2
  let q := gjkVec3Dot a d2
  let r := gjkVec3Dot (gjkVec3Sub2 B x0) d2
  (-(tri_s P x0 B C) * r - q) / w

/-- The epsilon-aware acceptance test of lines 128–132 of `vec3.c`. -/
def triAccept (eps : ℚ) (P x0 B C : Vec3) : Prop :=
  let s := tri_s P x0 B C
  let t := tri_t P x0 B C
  (gjkIsZero eps s ∨ s > 0) ∧ (gjkEq eps s 1 ∨ s < 1)
    ∧ (gjkIsZero eps t ∨ t > 0) ∧ (gjkEq eps t 1 ∨ t < 1)
    ∧ (gjkEq eps (t + s) 1 ∨ t + s < 1)

instance (eps : ℚ) (P x0 B C : Vec3) : Decidable (triAccept eps P x0 B C) := by
  unfold triAccept; infer_instance

/-- Function `gjkVec3PointTriDist2` from `vec3.c` (lines 95–169). -/
def gjkVec3PointTriDist2 (eps : ℚ) (P x0 B C : Vec3) (wantWitness : Bool) :
    ℚ × Option Vec3 :=
  let d1 := gjkVec3Sub2 B x0
  let d2 := gjkVec3Sub2 C x0
  let a := gjkVec3Sub2 x0 P
  let u := gjkVec3Dot a a
  let v := gjkVec3Dot d1 d1
  let w := gjkVec3Dot d2 d2
  let p := gjkVec3Dot a d1
  let q := gjkVec3Dot a d2
  let r := gjkVec3Dot d1 d2
  let s := (q * r - w * p) / (w * v - r * r)
  let t := (-s * r - q) / w
  if (gjkIsZero eps s ∨ s > 0) ∧ (gjkEq eps s 1 ∨ s < 1)
      ∧ (gjkIsZero eps t ∨ t > 0) ∧ (gjkEq eps t 1 ∨ t < 1)
      ∧ (gjkEq eps (t + s) 1 ∨ t + s < 1) then
    if wantWitness then
      let wit := gjkVec3Add (gjkVec3Add x0 (gjkVec3Scale d1 s)) (gjkVec3Scale d2 t)
      (gjkVec3Dist2 wit P, some wit)
    else
      (s * s * v + t * t * w + 2 * s * t * r + 2 * s * p + 2 * t * q + u, none)
  else
    let r1 := __gjkVec3PointSegmentDist2 eps P x0 B wantWitness
    let r2 := __gjkVec3PointSegmentDist2 eps P x0 C true
    let r12 := if r2.1 < r1.1 then (r2.1, if wantWitness then r2.2 else r1.2) else r1
    let r3 := __gjkVec3PointSegmentDist2 eps P B C true
    if r3.1 < r12.1 then (r3.1, if wantWitness then r3.2 else r12.2) else r12

/-! ## Specification-side geometric notions -/

/-- The point `x0 + t·(b−x0)` of the segment parametrization. -/
def segParam (x0 b : Vec3) (t : ℚ) : Vec3 :=
  gjkVec3Add (gjkVec3Scale (gjkVec3Sub2 b x0) t) x0

/-- Membership on the closed segment from `x0` to `b`. -/
def onSeg (x0 b w : Vec3) : Prop :=
  ∃ t : ℚ, 0 ≤ t ∧ t ≤ 1 ∧ w = segParam x0 b t

/-- The set of squared distances from `P` to the points of the closed
segment from `x0` to `b`. -/
def segDist2Set (P x0 b : Vec3) : Set ℚ :=
  {d : ℚ | ∃ t : ℚ, 0 ≤ t ∧ t ≤ 1 ∧ d = gjkVec3Dist2 (segParam x0 b t) P}

/-- The point `x0 + s·(B−x0) + t·(C−x0)` of the triangle parametrization. -/
def triParam (x0 B C : Vec3) (s t : ℚ) : Vec3 :=
  gjkVec3Add (gjkVec3Add x0 (gjkVec3Scale (gjkVec3Sub2 B x0) s))
    (gjkVec3Scale (gjkVec3Sub2 C x0) t)

/-- Membership on the closed triangle with vertices `x0`, `B`, `C`. -/
def onTri (x0 B C w : Vec3) : Prop :=
  ∃ s t : ℚ, 0 ≤ s ∧ 0 ≤ t ∧ s + t ≤ 1 ∧ w = triParam x0 B C s t

/-- The set of squared distances from `P` to the points of the closed
triangle with vertices `x0`, `B`, `C`. -/
def triDist2Set (P x0 B C : Vec3) : Set ℚ :=
  {d : ℚ | ∃ s t : ℚ, 0 ≤ s ∧ 0 ≤ t ∧ s + t ≤ 1 ∧
    d = gjkVec3Dist2 (triParam x0 B C s t) P}

/-- Cross product, used to state non-degeneracy of a triangle. -/
def gjkVec3Cross (a b : Vec3) : Vec3 :=
  ⟨a.y * b.z - a.z * b.y, a.z * b.x - a.x * b.z, a.x * b.y - a.y * b.x⟩

/-- Two vectors are parallel when one is a scalar multiple of the other. -/
def VecParallel (a b : Vec3) : Prop :=
  ∃ k : ℚ, gjkVec3Scale a k = b ∨ gjkVec3Scale b k = a

/-- Non-degeneracy of the triangle `(x0, B, C)` as the claims state it:
the edge directions `B−x0` and `C−x0` are neither zero-length nor
parallel. -/
def Nondeg (x0 B C : Vec3) : Prop :=
  gjkVec3Sub2 B x0 ≠ ⟨0, 0, 0⟩ ∧ gjkVec3Sub2 C x0 ≠ ⟨0, 0, 0⟩ ∧
    ¬ VecParallel (gjkVec3Sub2 B x0) (gjkVec3Sub2 C x0)

/-! ## Basic lemmas about the vector layer -/

lemma len2_nonneg (v : Vec3) : 0 ≤ gjkVec3Len2 v := by
  rcases v with ⟨a, b, c⟩
  simp only [gjkVec3Len2, gjkVec3Dot]
  nlinarith [sq_nonneg a, sq_nonneg b, sq_nonneg c]

lemma sub2_eq_zero_iff (a b : Vec3) : gjkVec3Sub2 a b = ⟨0, 0, 0⟩ ↔ a = b := by
  rcases a with ⟨a1, a2, a3⟩
  rcases b with ⟨b1, b2, b3⟩
  simp only [gjkVec3Sub2, Vec3.mk.injEq, sub_eq_zero]

lemma len2_pos_of_ne (v : Vec3) (h : v ≠ ⟨0, 0, 0⟩) : 0 < gjkVec3Len2 v := by
  rcases v with ⟨a, b, c⟩
  have h' : ¬(a = 0 ∧ b = 0 ∧ c = 0) := by
    intro hh
    exact h (by simp [hh.1, hh.2.1, hh.2.2])
  simp only [gjkVec3Len2, gjkVec3Dot]
  rcases eq_or_ne a 0 with ha | ha
  · rcases eq_or_ne b 0 with hb | hb
    · rcases eq_or_ne c 0 with hc | hc
      · exact absurd ⟨ha, hb, hc⟩ h'
      · nlinarith [mul_self_pos.mpr hc, sq_nonneg a, sq_nonneg b]
    · nlinarith [mul_self_pos.mpr hb, sq_nonneg a, sq_nonneg c]
  · nlinarith [mul_self_pos.mpr ha, sq_nonneg b, sq_nonneg c]

lemma dist2_nonneg (a b : Vec3) : 0 ≤ gjkVec3Dist2 a b :=
  len2_nonneg _

lemma dist2_symm (a b : Vec3) : gjkVec3Dist2 a b = gjkVec3Dist2 b a := by
  rcases a with ⟨a1, a2, a3⟩
  rcases b with ⟨b1, b2, b3⟩
  simp only [gjkVec3Dist2, gjkVec3Len2, gjkVec3Sub2, gjkVec3Dot]
  ring

lemma not_gjkIsZero_zero (t : ℚ) : ¬ gjkIsZero 0 t := by
  simp only [gjkIsZero, not_lt]
  exact abs_nonneg t

lemma not_gjkEq_zero (a b : ℚ) : ¬ gjkEq 0 a b := by
  simp only [gjkEq, not_lt]
  exact abs_nonneg _

/-! ## Evaluation lemmas for the segment routine -/

lemma segParam_zero (x0 b : Vec3) : segParam x0 b 0 = x0 := by
  rcases x0 with ⟨a1, a2, a3⟩
  rcases b with ⟨b1, b2, b3⟩
  simp only [segParam, gjkVec3Add, gjkVec3Scale, gjkVec3Sub2, Vec3.mk.injEq]
  refine ⟨by ring, by ring, by ring⟩

lemma segParam_one (x0 b : Vec3) : segParam x0 b 1 = b := by
  rcases x0 with ⟨a1, a2, a3⟩
  rcases b with ⟨b1, b2, b3⟩
  simp only [segParam, gjkVec3Add, gjkVec3Scale, gjkVec3Sub2, Vec3.mk.injEq]
  refine ⟨by ring, by ring, by ring⟩

lemma seg_eval_low (eps : ℚ) (P x0 b : Vec3) (wW : Bool)
    (h : seg_t P x0 b < 0 ∨ gjkIsZero eps (seg_t P x0 b)) :
    __gjkVec3PointSegmentDist2 eps P x0 b wW =
      (gjkVec3Dist2 x0 P, if wW then some x0 else none) := by
  simp only [seg_t] at h
  simp only [__gjkVec3PointSegmentDist2]
  rw [if_pos h]

lemma seg_eval_high (eps : ℚ) (P x0 b : Vec3) (wW : Bool)
    (h1 : ¬(seg_t P x0 b < 0 ∨ gjkIsZero eps (seg_t P x0 b)))
    (h2 : seg_t P x0 b > 1 ∨ gjkEq eps (seg_t P x0 b) 1) :
    __gjkVec3PointSegmentDist2 eps P x0 b wW =
      (gjkVec3Dist2 b P, if wW then some b else none) := by
  simp only [seg_t] at h1 h2
  simp only [__gjkVec3PointSegmentDist2]
  rw [if_neg h1, if_pos h2]

lemma seg_mid_paths (P x0 b : Vec3) (t : ℚ) :
    gjkVec3Len2 (gjkVec3Add (gjkVec3Scale (gjkVec3Sub2 b x0) t) (gjkVec3Sub2 x0 P)) =
      gjkVec3Dist2 (gjkVec3Add (gjkVec3Scale (gjkVec3Sub2 b x0) t) x0) P := by
  rcases P with ⟨p1, p2, p3⟩
  rcases x0 with ⟨a1, a2, a3⟩
  rcases b with ⟨b1, b2, b3⟩
  simp only [gjkVec3Len2, gjkVec3Dist2, gjkVec3Add, gjkVec3Scale, gjkVec3Sub2, gjkVec3Dot]
  ring

lemma seg_eval_mid (eps : ℚ) (P x0 b : Vec3) (wW : Bool)
    (h1 : ¬(seg_t P x0 b < 0 ∨ gjkIsZero eps (seg_t P x0 b)))
    (h2 : ¬(seg_t P x0 b > 1 ∨ gjkEq eps (seg_t P x0 b) 1)) :
    __gjkVec3PointSegmentDist2 eps P x0 b wW =
      (gjkVec3Dist2 (segParam x0 b (seg_t P x0 b)) P,
        if wW then some (segParam x0 b (seg_t P x0 b)) else none) := by
  simp only [seg_t] at h1 h2
  simp only [__gjkVec3PointSegmentDist2, segParam, seg_t]
  rw [if_neg h1, if_neg h2]
  cases wW
  · simp only [Bool.false_eq_true, if_false]
    exact Prod.ext (seg_mid_paths P x0 b _) rfl
  · simp only [if_true]

/-- Quadratic expansion of the squared distance along the segment
parametrization. -/
lemma segD2_quad (P x0 b : Vec3) (τ : ℚ) :
    gjkVec3Dist2 (segParam x0 b τ) P =
      gjkVec3Len2 (gjkVec3Sub2 x0 P)
        + 2 * τ * gjkVec3Dot (gjkVec3Sub2 x0 P) (gjkVec3Sub2 b x0)
        + τ ^ 2 * gjkVec3Len2 (gjkVec3Sub2 b x0) := by
  rcases P with ⟨p1, p2, p3⟩
  rcases x0 with ⟨a1, a2, a3⟩
  rcases b with ⟨b1, b2, b3⟩
  simp only [gjkVec3Dist2, gjkVec3Len2, segParam, gjkVec3Add, gjkVec3Scale,
    gjkVec3Sub2, gjkVec3Dot]
  ring

lemma seg_t_mul (P x0 b : Vec3) (h : gjkVec3Len2 (gjkVec3Sub2 b x0) ≠ 0) :
    seg_t P x0 b * gjkVec3Len2 (gjkVec3Sub2 b x0) =
      -(gjkVec3Dot (gjkVec3Sub2 x0 P) (gjkVec3Sub2 b x0)) := by
  simp only [seg_t]
  field_simp

/-- Scalar fact: when the unconstrained minimizer is at or below `0`, the
quadratic `u + 2τA + τ²L` on `τ ≥ 0` is minimized at `τ = 0`. -/
lemma quad_lower_left (u L A T τ : ℚ) (hL : 0 < L) (hTA : T * L = -A)
    (hT0 : T ≤ 0) (hτ0 : 0 ≤ τ) : u ≤ u + 2 * τ * A + τ ^ 2 * L := by
  have hA0 : 0 ≤ A := by nlinarith [mul_nonneg (neg_nonneg.mpr hT0) hL.le]
  nlinarith [mul_nonneg hτ0 hA0, mul_nonneg (sq_nonneg τ) hL.le]

/-- Scalar fact: when the unconstrained minimizer is at or above `1`, the
quadratic `u + 2τA + τ²L` on `τ ≤ 1` is minimized at `τ = 1`. -/
lemma quad_lower_right (u L A T τ : ℚ) (hL : 0 < L) (hTA : T * L = -A)
    (hT1 : 1 ≤ T) (hτ1 : τ ≤ 1) :
    u + 2 * A + L ≤ u + 2 * τ * A + τ ^ 2 * L := by
  have k1 : 0 ≤ 1 - τ := by linarith
  have k2 : 0 ≤ 2 * T - τ - 1 := by linarith
  nlinarith [mul_nonneg (mul_nonneg hL.le k1) k2]

/-- Scalar fact: the quadratic `u + 2τA + τ²L` is globally minimized at the
unconstrained minimizer `T = -A/L`. -/
lemma quad_lower_mid (u L A T τ : ℚ) (hL : 0 < L) (hTA : T * L = -A) :
    u + 2 * T * A + T ^ 2 * L ≤ u + 2 * τ * A + τ ^ 2 * L := by
  have hA : A = -(T * L) := by linarith
  subst hA
  nlinarith [mul_nonneg hL.le (sq_nonneg (τ - T))]

/-- Core minimality result for the segment routine with a zero tolerance. -/
lemma seg_isLeast_core (P x0 b : Vec3) (wW : Bool) (hne : b ≠ x0) :
    IsLeast (segDist2Set P x0 b) (__gjkVec3PointSegmentDist2 0 P x0 b wW).1 := by
  have hL : 0 < gjkVec3Len2 (gjkVec3Sub2 b x0) :=
    len2_pos_of_ne _ (fun hc => hne ((sub2_eq_zero_iff b x0).mp hc))
  have hTA : seg_t P x0 b * gjkVec3Len2 (gjkVec3Sub2 b x0) =
      -(gjkVec3Dot (gjkVec3Sub2 x0 P) (gjkVec3Sub2 b x0)) := seg_t_mul P x0 b hL.ne'
  have hu : gjkVec3Dist2 x0 P = gjkVec3Len2 (gjkVec3Sub2 x0 P) := rfl
  by_cases hT0 : seg_t P x0 b < 0
  · rw [seg_eval_low 0 P x0 b wW (Or.inl hT0)]
    constructor
    · exact ⟨0, le_refl 0, zero_le_one, by rw [segParam_zero]⟩
    · rintro dv ⟨τ, hτ0, hτ1, rfl⟩
      rw [segD2_quad, hu]
      exact quad_lower_left _ _ _ _ τ hL hTA hT0.le hτ0
  · by_cases hT1 : seg_t P x0 b > 1
    · rw [seg_eval_high 0 P x0 b wW
        (not_or.mpr ⟨hT0, not_gjkIsZero_zero _⟩) (Or.inl hT1)]
      have hbv : gjkVec3Dist2 b P =
          gjkVec3Len2 (gjkVec3Sub2 x0 P)
            + 2 * gjkVec3Dot (gjkVec3Sub2 x0 P) (gjkVec3Sub2 b x0)
            + gjkVec3Len2 (gjkVec3Sub2 b x0) := by
        conv_lhs => rw [← segParam_one x0 b]
        rw [segD2_quad]
        ring
      constructor
      · exact ⟨1, zero_le_one, le_refl 1, by rw [segParam_one]⟩
      · rintro dv ⟨τ, hτ0, hτ1, rfl⟩
        rw [segD2_quad, hbv]
        exact quad_lower_right _ _ _ _ τ hL hTA hT1.le hτ1
    · rw [seg_eval_mid 0 P x0 b wW (not_or.mpr ⟨hT0, not_gjkIsZero_zero _⟩)
        (not_or.mpr ⟨hT1, not_gjkEq_zero _ 1⟩)]
      constructor
      · exact ⟨seg_t P x0 b, le_of_not_lt hT0, le_of_not_lt hT1, rfl⟩
      · rintro dv ⟨τ, hτ0, hτ1, rfl⟩
        rw [segD2_quad, segD2_quad]
        exact quad_lower_mid _ _ _ _ τ hL hTA

/-- Whenever the segment routine is asked for a witness, the witness lies on
the segment and achieves the returned squared distance (any tolerance). -/
lemma seg_witness_core (eps : ℚ) (P x0 b : Vec3) (wp : Vec3)
    (hwp : (__gjkVec3PointSegmentDist2 eps P x0 b true).2 = some wp) :
    onSeg x0 b wp ∧
      gjkVec3Dist2 wp P = (__gjkVec3PointSegmentDist2 eps P x0 b true).1 := by
  by_cases h1 : seg_t P x0 b < 0 ∨ gjkIsZero eps (seg_t P x0 b)
  · rw [seg_eval_low eps P x0 b true h1] at hwp ⊢
    simp only [if_true, Option.some.injEq] at hwp
    subst hwp
    exact ⟨⟨0, le_refl 0, zero_le_one, (segParam_zero x0 b).symm⟩, rfl⟩
  · by_cases h2 : seg_t P x0 b > 1 ∨ gjkEq eps (seg_t P x0 b) 1
    · rw [seg_eval_high eps P x0 b true h1 h2] at hwp ⊢
      simp only [if_true, Option.some.injEq] at hwp
      subst hwp
      exact ⟨⟨1, zero_le_one, le_refl 1, (segParam_one x0 b).symm⟩, rfl⟩
    · rw [seg_eval_mid eps P x0 b true h1 h2] at hwp ⊢
      simp only [if_true, Option.some.injEq] at hwp
      subst hwp
      push_neg at h1 h2
      exact ⟨⟨seg_t P x0 b, h1.1, h2.1, rfl⟩, rfl⟩

/-- The returned squared distance of the segment routine does not depend on
whether a witness was requested. -/
lemma seg_fst_agnostic (eps : ℚ) (P x0 b : Vec3) (w1 w2 : Bool) :
    (__gjkVec3PointSegmentDist2 eps P x0 b w1).1 =
      (__gjkVec3PointSegmentDist2 eps P x0 b w2).1 := by
  by_cases h1 : seg_t P x0 b < 0 ∨ gjkIsZero eps (seg_t P x0 b)
  · rw [seg_eval_low eps P x0 b w1 h1, seg_eval_low eps P x0 b w2 h1]
  · by_cases h2 : seg_t P x0 b > 1 ∨ gjkEq eps (seg_t P x0 b) 1
    · rw [seg_eval_high eps P x0 b w1 h1 h2, seg_eval_high eps P x0 b w2 h1 h2]
    · rw [seg_eval_mid eps P x0 b w1 h1 h2, seg_eval_mid eps P x0 b w2 h1 h2]

/-- The segment routine always returns a squared norm, hence a non-negative
value (any tolerance, any input). -/
lemma seg_fst_nonneg (eps : ℚ) (P x0 b : Vec3) (wW : Bool) :
    0 ≤ (__gjkVec3PointSegmentDist2 eps P x0 b wW).1 := by
  by_cases h1 : seg_t P x0 b < 0 ∨ gjkIsZero eps (seg_t P x0 b)
  · rw [seg_eval_low eps P x0 b wW h1]
    exact dist2_nonneg x0 P
  · by_cases h2 : seg_t P x0 b > 1 ∨ gjkEq eps (seg_t P x0 b) 1
    · rw [seg_eval_high eps P x0 b wW h1 h2]
      exact dist2_nonneg b P
    · rw [seg_eval_mid eps P x0 b wW h1 h2]
      exact dist2_nonneg _ P

/-! ## Evaluation lemmas for the triangle routine -/

/-- Quadratic-form expansion of the squared distance over the triangle
parametrization: the no-witness in-triangle expression of lines 143–148 of
`vec3.c` equals the recomputed witness distance for all `s`, `t`. -/
lemma triD2_quad (P x0 B C : Vec3) (s t : ℚ) :
    gjkVec3Dist2 (triParam x0 B C s t) P =
      s * s * gjkVec3Dot (gjkVec3Sub2 B x0) (gjkVec3Sub2 B x0)
        + t * t * gjkVec3Dot (gjkVec3Sub2 C x0) (gjkVec3Sub2 C x0)
        + 2 * s * t * gjkVec3Dot (gjkVec3Sub2 B x0) (gjkVec3Sub2 C x0)
        + 2 * s * gjkVec3Dot (gjkVec3Sub2 x0 P) (gjkVec3Sub2 B x0)
        + 2 * t * gjkVec3Dot (gjkVec3Sub2 x0 P) (gjkVec3Sub2 C x0)
        + gjkVec3Dot (gjkVec3Sub2 x0 P) (gjkVec3Sub2 x0 P) := by
  rcases P with ⟨p1, p2, p3⟩
  rcases x0 with ⟨a1, a2, a3⟩
  rcases B with ⟨b1, b2, b3⟩
  rcases C with ⟨c1, c2, c3⟩
  simp only [gjkVec3Dist2, gjkVec3Len2, triParam, gjkVec3Add, gjkVec3Scale,
    gjkVec3Sub2, gjkVec3Dot]
  ring

lemma tri_eval_accept (eps : ℚ) (P x0 B C : Vec3) (wW : Bool)
    (h : triAccept eps P x0 B C) :
    gjkVec3PointTriDist2 eps P x0 B C wW =
      (gjkVec3Dist2 (triParam x0 B C (tri_s P x0 B C) (tri_t P x0 B C)) P,
        if wW then some (triParam x0 B C (tri_s P x0 B C) (tri_t P x0 B C))
        else none) := by
  simp only [triAccept, tri_t, tri_s] at h
  simp only [gjkVec3PointTriDist2]
  rw [if_pos h]
  cases wW
  · simp only [Bool.false_eq_true, if_false]
    refine Prod.ext ?_ rfl
    rw [triD2_quad]
    simp only [tri_t, tri_s]
  · simp only [if_true]
    rfl

lemma tri_eval_reject (eps : ℚ) (P x0 B C : Vec3) (wW : Bool)
    (h : ¬ triAccept eps P x0 B C) :
    gjkVec3PointTriDist2 eps P x0 B C wW =
      (let r1 := __gjkVec3PointSegmentDist2 eps P x0 B wW
       let r2 := __gjkVec3PointSegmentDist2 eps P x0 C true
       let r12 := if r2.1 < r1.1 then (r2.1, if wW then r2.2 else r1.2) else r1
       let r3 := __gjkVec3PointSegmentDist2 eps P B C true
       if r3.1 < r12.1 then (r3.1, if wW then r3.2 else r12.2) else r12) := by
  simp only [triAccept, tri_t, tri_s] at h
  simp only [gjkVec3PointTriDist2]
  rw [if_neg h]

/-- In the rejected (edge-fallback) case, the returned squared distance is
the minimum of the three edge squared distances. -/
lemma tri_reject_fst (eps : ℚ) (P x0 B C : Vec3) (wW : Bool)
    (h : ¬ triAccept eps P x0 B C) :
    (gjkVec3PointTriDist2 eps P x0 B C wW).1 =
      min (min (__gjkVec3PointSegmentDist2 eps P x0 B wW).1
        (__gjkVec3PointSegmentDist2 eps P x0 C wW).1)
        (__gjkVec3PointSegmentDist2 eps P B C wW).1 := by
  rw [tri_eval_reject eps P x0 B C wW h]
  have h2eq : (__gjkVec3PointSegmentDist2 eps P x0 C true).1 =
      (__gjkVec3PointSegmentDist2 eps P x0 C wW).1 := seg_fst_agnostic eps P x0 C true wW
  have h3eq : (__gjkVec3PointSegmentDist2 eps P B C true).1 =
      (__gjkVec3PointSegmentDist2 eps P B C wW).1 := seg_fst_agnostic eps P B C true wW
  dsimp only
  split_ifs <;> simp only [min_def] <;> split_ifs <;> linarith

/-- In the rejected case with a requested witness, the returned pair is one
of the three edge results (so the witness is the witness of an edge
achieving the minimum). -/
lemma tri_reject_pair (eps : ℚ) (P x0 B C : Vec3)
    (h : ¬ triAccept eps P x0 B C) :
    gjkVec3PointTriDist2 eps P x0 B C true =
        __gjkVec3PointSegmentDist2 eps P x0 B true ∨
      gjkVec3PointTriDist2 eps P x0 B C true =
        __gjkVec3PointSegmentDist2 eps P x0 C true ∨
      gjkVec3PointTriDist2 eps P x0 B C true =
        __gjkVec3PointSegmentDist2 eps P B C true := by
  rw [tri_eval_reject eps P x0 B C true h]
  dsimp only
  simp only [eq_self_iff_true, if_true, Prod.mk.eta]
  split_ifs
  · exact Or.inr (Or.inr rfl)
  · exact Or.inr (Or.inl rfl)
  · exact Or.inr (Or.inr rfl)
  · exact Or.inl rfl

/-! ## Non-degeneracy: the Gram determinant is positive -/

/-- Lagrange identity: the Gram determinant equals the squared length of the
cross product. -/
lemma lagrange_identity (d1 d2 : Vec3) :
    gjkVec3Dot d2 d2 * gjkVec3Dot d1 d1 - gjkVec3Dot d1 d2 * gjkVec3Dot d1 d2 =
      gjkVec3Len2 (gjkVec3Cross d1 d2) := by
  rcases d1 with ⟨a1, a2, a3⟩
  rcases d2 with ⟨b1, b2, b3⟩
  simp only [gjkVec3Dot, gjkVec3Len2, gjkVec3Cross]
  ring

lemma parallel_of_cross_eq_zero (d1 d2 : Vec3) (h1 : d1 ≠ ⟨0, 0, 0⟩)
    (hc : gjkVec3Cross d1 d2 = ⟨0, 0, 0⟩) : VecParallel d1 d2 := by
  rcases d1 with ⟨a1, a2, a3⟩
  rcases d2 with ⟨b1, b2, b3⟩
  simp only [gjkVec3Cross, Vec3.mk.injEq] at hc
  obtain ⟨hc1, hc2, hc3⟩ := hc
  have h1' : ¬(a1 = 0 ∧ a2 = 0 ∧ a3 = 0) := by
    intro hh
    exact h1 (by simp [hh.1, hh.2.1, hh.2.2])
  rcases eq_or_ne a1 0 with ha1 | ha1
  · rcases eq_or_ne a2 0 with ha2 | ha2
    · rcases eq_or_ne a3 0 with ha3 | ha3
      · exact absurd ⟨ha1, ha2, ha3⟩ h1'
      · refine ⟨b3 / a3, Or.inl ?_⟩
        simp only [gjkVec3Scale, Vec3.mk.injEq]
        subst ha1 ha2
        refine ⟨?_, ?_, by field_simp⟩
        · have : a3 * b1 = 0 := by linarith
          have hb1 : b1 = 0 := by
            rcases mul_eq_zero.mp this with h | h
            · exact absurd h ha3
            · exact h
          simp [hb1]
        · have : a3 * b2 = 0 := by linarith
          have hb2 : b2 = 0 := by
            rcases mul_eq_zero.mp this with h | h
            · exact absurd h ha3
            · exact h
          simp [hb2]
    · refine ⟨b2 / a2, Or.inl ?_⟩
      simp only [gjkVec3Scale, Vec3.mk.injEq]
      subst ha1
      refine ⟨?_, by field_simp, ?_⟩
      · have : a2 * b1 = 0 := by linarith
        have hb1 : b1 = 0 := by
          rcases mul_eq_zero.mp this with h | h
          · exact absurd h ha2
          · exact h
        simp [hb1]
      · field_simp
        linarith
  · refine ⟨b1 / a1, Or.inl ?_⟩
    simp only [gjkVec3Scale, Vec3.mk.injEq]
    refine ⟨by field_simp, ?_, ?_⟩
    · field_simp
      linarith
    · field_simp
      linarith

lemma scale_one (a : Vec3) : gjkVec3Scale a 1 = a := by
  rcases a with ⟨a1, a2, a3⟩
  simp only [gjkVec3Scale, Vec3.mk.injEq]
  refine ⟨by ring, by ring, by ring⟩

/-- For a non-degenerate triangle, the divisor `w·v − r²` of line 125 is
(strictly) positive. -/
lemma gram_pos (d1 d2 : Vec3) (h1 : d1 ≠ ⟨0, 0, 0⟩)
    (hp : ¬ VecParallel d1 d2) :
    0 < gjkVec3Dot d2 d2 * gjkVec3Dot d1 d1 -
      gjkVec3Dot d1 d2 * gjkVec3Dot d1 d2 := by
  rw [lagrange_identity]
  refine len2_pos_of_ne _ (fun hc => hp ?_)
  exact parallel_of_cross_eq_zero d1 d2 h1 hc

/-- Positive semidefiniteness of the triangle's quadratic form. -/
lemma quad2_nonneg (v w r x y : ℚ) (hv : 0 < v) (hden : 0 < w * v - r * r) :
    0 ≤ v * x ^ 2 + 2 * r * x * y + w * y ^ 2 := by
  nlinarith [sq_nonneg (v * x + r * y), mul_nonneg hden.le (sq_nonneg y)]

/-- The computed `(s, t)` of lines 125–126 is the critical point of the
quadratic form: both partial derivatives vanish there. -/
lemma crit_of_formulas (v w p q r S T : ℚ) (hw : w ≠ 0) (hden : w * v - r * r ≠ 0)
    (hS : S = (q * r - w * p) / (w * v - r * r)) (hT : T = (-S * r - q) / w) :
    S * v + T * r + p = 0 ∧ T * w + S * r + q = 0 := by
  have hS' : S * (w * v - r * r) = q * r - w * p := by
    rw [hS]
    field_simp
  have hT' : T * w = -S * r - q := by
    rw [hT]
    field_simp
  constructor
  · have key : w * (S * v + T * r + p) = 0 := by linear_combination hS' + r * hT'
    rcases mul_eq_zero.mp key with h | h
    · exact absurd h hw
    · exact h
  · linarith

/-- Global minimality of the critical point of the quadratic form. -/
lemma quad2_lower (v w r p q u s t S T : ℚ) (hv : 0 < v)
    (hden : 0 < w * v - r * r)
    (h1 : S * v + T * r + p = 0) (h2 : T * w + S * r + q = 0) :
    S * S * v + T * T * w + 2 * S * T * r + 2 * S * p + 2 * T * q + u ≤
      s * s * v + t * t * w + 2 * s * t * r + 2 * s * p + 2 * t * q + u := by
  have hQ : s * s * v + t * t * w + 2 * s * t * r + 2 * s * p + 2 * t * q + u
      - (S * S * v + T * T * w + 2 * S * T * r + 2 * S * p + 2 * T * q + u) =
      v * (s - S) ^ 2 + 2 * r * (s - S) * (t - T) + w * (t - T) ^ 2 := by
    linear_combination (2 * (s - S)) * h1 + (2 * (t - T)) * h2
  have hpos : 0 ≤ v * (s - S) ^ 2 + 2 * r * (s - S) * (t - T) + w * (t - T) ^ 2 :=
    quad2_nonneg v w r (s - S) (t - T) hv hden
  linarith

/-- Moving a point of the parameter plane towards the critical point never
increases the quadratic form. -/
lemma quad2_shrink (v w r p q u s t S T lam : ℚ) (hv : 0 < v)
    (hden : 0 < w * v - r * r)
    (h1 : S * v + T * r + p = 0) (h2 : T * w + S * r + q = 0)
    (hl0 : 0 ≤ lam) (hl1 : lam ≤ 1) :
    ((1 - lam) * s + lam * S) * ((1 - lam) * s + lam * S) * v
        + ((1 - lam) * t + lam * T) * ((1 - lam) * t + lam * T) * w
        + 2 * ((1 - lam) * s + lam * S) * ((1 - lam) * t + lam * T) * r
        + 2 * ((1 - lam) * s + lam * S) * p
        + 2 * ((1 - lam) * t + lam * T) * q + u ≤
      s * s * v + t * t * w + 2 * s * t * r + 2 * s * p + 2 * t * q + u := by
  have hQ : s * s * v + t * t * w + 2 * s * t * r + 2 * s * p + 2 * t * q + u
      - (S * S * v + T * T * w + 2 * S * T * r + 2 * S * p + 2 * T * q + u) =
      v * (s - S) ^ 2 + 2 * r * (s - S) * (t - T) + w * (t - T) ^ 2 := by
    linear_combination (2 * (s - S)) * h1 + (2 * (t - T)) * h2
  have hQy : ((1 - lam) * s + lam * S) * ((1 - lam) * s + lam * S) * v
      + ((1 - lam) * t + lam * T) * ((1 - lam) * t + lam * T) * w
      + 2 * ((1 - lam) * s + lam * S) * ((1 - lam) * t + lam * T) * r
      + 2 * ((1 - lam) * s + lam * S) * p
      + 2 * ((1 - lam) * t + lam * T) * q + u
      - (S * S * v + T * T * w + 2 * S * T * r + 2 * S * p + 2 * T * q + u) =
      (1 - lam) ^ 2 *
        (v * (s - S) ^ 2 + 2 * r * (s - S) * (t - T) + w * (t - T) ^ 2) := by
    linear_combination (2 * (1 - lam) * (s - S)) * h1 + (2 * (1 - lam) * (t - T)) * h2
  have hpos : 0 ≤ v * (s - S) ^ 2 + 2 * r * (s - S) * (t - T) + w * (t - T) ^ 2 :=
    quad2_nonneg v w r (s - S) (t - T) hv hden
  have hsq : (1 - lam) ^ 2 ≤ 1 := by nlinarith
  nlinarith [mul_le_mul_of_nonneg_right hsq hpos]

/-! ## Exit-point construction for the edge-fallback case -/

lemma crossing_bounds (a b : ℚ) (ha : 0 ≤ a) :
    0 ≤ (if b < 0 then a / (a - b) else 1) ∧
      (if b < 0 then a / (a - b) else 1) ≤ 1 := by
  split_ifs with hb
  · have hab : 0 < a - b := by linarith
    constructor
    · exact div_nonneg ha hab.le
    · rw [div_le_one hab]
      linarith
  · exact ⟨zero_le_one, le_refl 1⟩

lemma crossing_combo (a b lam : ℚ) (ha : 0 ≤ a) (hl0 : 0 ≤ lam)
    (hl : lam ≤ (if b < 0 then a / (a - b) else 1)) :
    0 ≤ (1 - lam) * a + lam * b := by
  split_ifs at hl with hb
  · have hab : 0 < a - b := by linarith
    rw [le_div_iff₀ hab] at hl
    nlinarith
  · push_neg at hb
    nlinarith [mul_nonneg (by linarith : (0:ℚ) ≤ 1 - lam) ha, mul_nonneg hl0 hb]

lemma crossing_zero (a b : ℚ) (ha : 0 ≤ a) (hb : b < 0) :
    (1 - a / (a - b)) * a + (a / (a - b)) * b = 0 := by
  have hab : a - b ≠ 0 := by linarith
  field_simp
  ring

/-- Exit-point lemma: from a point satisfying the three affine constraints
towards a point weakly violating one of them, some convex combination
satisfies all three constraints with at least one of them active. -/
lemma exit_lemma (a1 a2 a3 b1 b2 b3 : ℚ)
    (h1 : 0 ≤ a1) (h2 : 0 ≤ a2) (h3 : 0 ≤ a3)
    (hb : b1 ≤ 0 ∨ b2 ≤ 0 ∨ b3 ≤ 0) :
    ∃ lam : ℚ, 0 ≤ lam ∧ lam ≤ 1 ∧
      0 ≤ (1 - lam) * a1 + lam * b1 ∧
      0 ≤ (1 - lam) * a2 + lam * b2 ∧
      0 ≤ (1 - lam) * a3 + lam * b3 ∧
      ((1 - lam) * a1 + lam * b1 = 0 ∨ (1 - lam) * a2 + lam * b2 = 0 ∨
        (1 - lam) * a3 + lam * b3 = 0) := by
  set c1 : ℚ := if b1 < 0 then a1 / (a1 - b1) else 1 with hc1def
  set c2 : ℚ := if b2 < 0 then a2 / (a2 - b2) else 1 with hc2def
  set c3 : ℚ := if b3 < 0 then a3 / (a3 - b3) else 1 with hc3def
  have hb1 := crossing_bounds a1 b1 h1
  have hb2 := crossing_bounds a2 b2 h2
  have hb3 := crossing_bounds a3 b3 h3
  set lam : ℚ := min c1 (min c2 c3) with hlamdef
  have hlam0 : 0 ≤ lam := le_min hb1.1 (le_min hb2.1 hb3.1)
  have hlam1 : lam ≤ 1 := (min_le_left _ _).trans hb1.2
  have hco1 : 0 ≤ (1 - lam) * a1 + lam * b1 :=
    crossing_combo a1 b1 lam h1 hlam0 (min_le_left _ _)
  have hco2 : 0 ≤ (1 - lam) * a2 + lam * b2 :=
    crossing_combo a2 b2 lam h2 hlam0 ((min_le_right _ _).trans (min_le_left _ _))
  have hco3 : 0 ≤ (1 - lam) * a3 + lam * b3 :=
    crossing_combo a3 b3 lam h3 hlam0 ((min_le_right _ _).trans (min_le_right _ _))
  refine ⟨lam, hlam0, hlam1, hco1, hco2, hco3, ?_⟩
  by_cases hone : lam = 1
  · rcases hb with hbv | hbv | hbv
    · left
      rw [hone] at hco1 ⊢
      linarith
    · right; left
      rw [hone] at hco2 ⊢
      linarith
    · right; right
      rw [hone] at hco3 ⊢
      linarith
  · have hlt : lam < 1 := lt_of_le_of_ne hlam1 hone
    rcases min_choice c1 (min c2 c3) with hch | hch
    · left
      rw [← hlamdef] at hch
      have hbneg : b1 < 0 := by
        by_contra hcon
        rw [hch, hc1def, if_neg hcon] at hlt
        exact lt_irrefl 1 hlt
      rw [hch, hc1def, if_pos hbneg]
      exact crossing_zero a1 b1 h1 hbneg
    · rw [← hlamdef] at hch
      rcases min_choice c2 c3 with hch' | hch'
      · right; left
        rw [hch'] at hch
        have hbneg : b2 < 0 := by
          by_contra hcon
          rw [hch, hc2def, if_neg hcon] at hlt
          exact lt_irrefl 1 hlt
        rw [hch, hc2def, if_pos hbneg]
        exact crossing_zero a2 b2 h2 hbneg
      · right; right
        rw [hch'] at hch
        have hbneg : b3 < 0 := by
          by_contra hcon
          rw [hch, hc3def, if_neg hcon] at hlt
          exact lt_irrefl 1 hlt
        rw [hch, hc3def, if_pos hbneg]
        exact crossing_zero a3 b3 h3 hbneg

/-! ## The acceptance test at zero tolerance, and the simplex edges -/

lemma triAccept_zero_iff (P x0 B C : Vec3) :
    triAccept 0 P x0 B C ↔
      0 < tri_s P x0 B C ∧ tri_s P x0 B C < 1 ∧ 0 < tri_t P x0 B C ∧
        tri_t P x0 B C < 1 ∧ tri_t P x0 B C + tri_s P x0 B C < 1 := by
  constructor
  · rintro ⟨h1, h2, h3, h4, h5⟩
    exact ⟨h1.resolve_left (not_gjkIsZero_zero _),
      h2.resolve_left (not_gjkEq_zero _ _),
      h3.resolve_left (not_gjkIsZero_zero _),
      h4.resolve_left (not_gjkEq_zero _ _),
      h5.resolve_left (not_gjkEq_zero _ _)⟩
  · rintro ⟨h1, h2, h3, h4, h5⟩
    exact ⟨Or.inr h1, Or.inr h2, Or.inr h3, Or.inr h4, Or.inr h5⟩

lemma triParam_t0 (x0 B C : Vec3) (s : ℚ) :
    triParam x0 B C s 0 = segParam x0 B s := by
  rcases x0 with ⟨a1, a2, a3⟩
  rcases B with ⟨b1, b2, b3⟩
  rcases C with ⟨c1, c2, c3⟩
  simp only [triParam, segParam, gjkVec3Add, gjkVec3Scale, gjkVec3Sub2, Vec3.mk.injEq]
  refine ⟨by ring, by ring, by ring⟩

lemma triParam_s0 (x0 B C : Vec3) (t : ℚ) :
    triParam x0 B C 0 t = segParam x0 C t := by
  rcases x0 with ⟨a1, a2, a3⟩
  rcases B with ⟨b1, b2, b3⟩
  rcases C with ⟨c1, c2, c3⟩
  simp only [triParam, segParam, gjkVec3Add, gjkVec3Scale, gjkVec3Sub2, Vec3.mk.injEq]
  refine ⟨by ring, by ring, by ring⟩

lemma triParam_hyp (x0 B C : Vec3) (t : ℚ) :
    triParam x0 B C (1 - t) t = segParam B C t := by
  rcases x0 with ⟨a1, a2, a3⟩
  rcases B with ⟨b1, b2, b3⟩
  rcases C with ⟨c1, c2, c3⟩
  simp only [triParam, segParam, gjkVec3Add, gjkVec3Scale, gjkVec3Sub2, Vec3.mk.injEq]
  refine ⟨by ring, by ring, by ring⟩

lemma segSet_x0B_sub (P x0 B C : Vec3) :
    segDist2Set P x0 B ⊆ triDist2Set P x0 B C := by
  rintro dv ⟨τ, h0, h1, rfl⟩
  exact ⟨τ, 0, h0, le_refl 0, by linarith, by rw [triParam_t0]⟩

lemma segSet_x0C_sub (P x0 B C : Vec3) :
    segDist2Set P x0 C ⊆ triDist2Set P x0 B C := by
  rintro dv ⟨τ, h0, h1, rfl⟩
  exact ⟨0, τ, le_refl 0, h0, by linarith, by rw [triParam_s0]⟩

lemma segSet_BC_sub (P x0 B C : Vec3) :
    segDist2Set P B C ⊆ triDist2Set P x0 B C := by
  rintro dv ⟨τ, h0, h1, rfl⟩
  exact ⟨1 - τ, τ, by linarith, h0, by linarith, by rw [triParam_hyp]⟩

/-! ## Minimality of the triangle routine (zero tolerance) -/

lemma nondeg_B_ne (x0 B C : Vec3) (hnd : Nondeg x0 B C) : B ≠ x0 := by
  intro h
  exact hnd.1 ((sub2_eq_zero_iff B x0).mpr h)

lemma nondeg_C_ne (x0 B C : Vec3) (hnd : Nondeg x0 B C) : C ≠ x0 := by
  intro h
  exact hnd.2.1 ((sub2_eq_zero_iff C x0).mpr h)

lemma nondeg_CB_ne (x0 B C : Vec3) (hnd : Nondeg x0 B C) : C ≠ B := by
  intro h
  refine hnd.2.2 ⟨1, Or.inl ?_⟩
  rw [scale_one, h]

lemma tri_isLeast_accept (P x0 B C : Vec3) (wW : Bool) (hnd : Nondeg x0 B C)
    (hacc : triAccept 0 P x0 B C) :
    IsLeast (triDist2Set P x0 B C) (gjkVec3PointTriDist2 0 P x0 B C wW).1 := by
  obtain ⟨hs0, hs1, ht0, ht1, hts⟩ := (triAccept_zero_iff P x0 B C).mp hacc
  have hv : 0 < gjkVec3Dot (gjkVec3Sub2 B x0) (gjkVec3Sub2 B x0) :=
    len2_pos_of_ne _ hnd.1
  have hw : 0 < gjkVec3Dot (gjkVec3Sub2 C x0) (gjkVec3Sub2 C x0) :=
    len2_pos_of_ne _ hnd.2.1
  have hden := gram_pos (gjkVec3Sub2 B x0) (gjkVec3Sub2 C x0) hnd.1 hnd.2.2
  obtain ⟨h1, h2⟩ := crit_of_formulas
    (gjkVec3Dot (gjkVec3Sub2 B x0) (gjkVec3Sub2 B x0))
    (gjkVec3Dot (gjkVec3Sub2 C x0) (gjkVec3Sub2 C x0))
    (gjkVec3Dot (gjkVec3Sub2 x0 P) (gjkVec3Sub2 B x0))
    (gjkVec3Dot (gjkVec3Sub2 x0 P) (gjkVec3Sub2 C x0))
    (gjkVec3Dot (gjkVec3Sub2 B x0) (gjkVec3Sub2 C x0))
    (tri_s P x0 B C) (tri_t P x0 B C) hw.ne' hden.ne' rfl rfl
  rw [tri_eval_accept 0 P x0 B C wW hacc]
  constructor
  · exact ⟨tri_s P x0 B C, tri_t P x0 B C, hs0.le, ht0.le, by linarith, rfl⟩
  · rintro dv ⟨s, t, hs, ht, hstv, rfl⟩
    rw [triD2_quad, triD2_quad]
    exact quad2_lower _ _ _ _ _ _ s t _ _ hv hden h1 h2

lemma tri_isLeast_reject (P x0 B C : Vec3) (wW : Bool) (hnd : Nondeg x0 B C)
    (hrej : ¬ triAccept 0 P x0 B C) :
    IsLeast (triDist2Set P x0 B C) (gjkVec3PointTriDist2 0 P x0 B C wW).1 := by
  have hBx0 := nondeg_B_ne x0 B C hnd
  have hCx0 := nondeg_C_ne x0 B C hnd
  have hCB := nondeg_CB_ne x0 B C hnd
  have e1least := seg_isLeast_core P x0 B wW hBx0
  have e2least := seg_isLeast_core P x0 C wW hCx0
  have e3least := seg_isLeast_core P B C wW hCB
  have hv : 0 < gjkVec3Dot (gjkVec3Sub2 B x0) (gjkVec3Sub2 B x0) :=
    len2_pos_of_ne _ hnd.1
  have hw : 0 < gjkVec3Dot (gjkVec3Sub2 C x0) (gjkVec3Sub2 C x0) :=
    len2_pos_of_ne _ hnd.2.1
  have hden := gram_pos (gjkVec3Sub2 B x0) (gjkVec3Sub2 C x0) hnd.1 hnd.2.2
  obtain ⟨h1, h2⟩ := crit_of_formulas
    (gjkVec3Dot (gjkVec3Sub2 B x0) (gjkVec3Sub2 B x0))
    (gjkVec3Dot (gjkVec3Sub2 C x0) (gjkVec3Sub2 C x0))
    (gjkVec3Dot (gjkVec3Sub2 x0 P) (gjkVec3Sub2 B x0))
    (gjkVec3Dot (gjkVec3Sub2 x0 P) (gjkVec3Sub2 C x0))
    (gjkVec3Dot (gjkVec3Sub2 B x0) (gjkVec3Sub2 C x0))
    (tri_s P x0 B C) (tri_t P x0 B C) hw.ne' hden.ne' rfl rfl
  have hb : tri_s P x0 B C ≤ 0 ∨ tri_t P x0 B C ≤ 0 ∨
      1 - tri_s P x0 B C - tri_t P x0 B C ≤ 0 := by
    by_contra hcon
    push_neg at hcon
    exact hrej ((triAccept_zero_iff P x0 B C).mpr
      ⟨hcon.1, by linarith [hcon.2.1, hcon.2.2], hcon.2.1,
        by linarith [hcon.1, hcon.2.2], by linarith [hcon.2.2]⟩)
  rw [tri_reject_fst 0 P x0 B C wW hrej]
  set e1 := (__gjkVec3PointSegmentDist2 0 P x0 B wW).1 with he1
  set e2 := (__gjkVec3PointSegmentDist2 0 P x0 C wW).1 with he2
  set e3 := (__gjkVec3PointSegmentDist2 0 P B C wW).1 with he3
  constructor
  · rcases min_choice (min e1 e2) e3 with hm | hm
    · rw [hm]
      rcases min_choice e1 e2 with hm2 | hm2
      · rw [hm2]
        exact segSet_x0B_sub P x0 B C e1least.1
      · rw [hm2]
        exact segSet_x0C_sub P x0 B C e2least.1
    · rw [hm]
      exact segSet_BC_sub P x0 B C e3least.1
  · rintro dv ⟨s, t, hs, ht, hstv, rfl⟩
    rw [triD2_quad]
    obtain ⟨lam, hl0, hl1, hcs, hct, hc3, hzero⟩ :=
      exit_lemma s t (1 - s - t) (tri_s P x0 B C) (tri_t P x0 B C)
        (1 - tri_s P x0 B C - tri_t P x0 B C) hs ht (by linarith) hb
    have hshr := quad2_shrink
      (gjkVec3Dot (gjkVec3Sub2 B x0) (gjkVec3Sub2 B x0))
      (gjkVec3Dot (gjkVec3Sub2 C x0) (gjkVec3Sub2 C x0))
      (gjkVec3Dot (gjkVec3Sub2 B x0) (gjkVec3Sub2 C x0))
      (gjkVec3Dot (gjkVec3Sub2 x0 P) (gjkVec3Sub2 B x0))
      (gjkVec3Dot (gjkVec3Sub2 x0 P) (gjkVec3Sub2 C x0))
      (gjkVec3Dot (gjkVec3Sub2 x0 P) (gjkVec3Sub2 x0 P))
      s t (tri_s P x0 B C) (tri_t P x0 B C) lam hv hden h1 h2 hl0 hl1
    have hmin1 : min (min e1 e2) e3 ≤ e1 := (min_le_left _ _).trans (min_le_left _ _)
    have hmin2 : min (min e1 e2) e3 ≤ e2 := (min_le_left _ _).trans (min_le_right _ _)
    have hmin3 : min (min e1 e2) e3 ≤ e3 := min_le_right _ _
    rcases hzero with hz | hz | hz
    · have ht'le : (1 - lam) * t + lam * tri_t P x0 B C ≤ 1 := by linarith [hc3, hz]
      have memb : gjkVec3Dist2
          (segParam x0 C ((1 - lam) * t + lam * tri_t P x0 B C)) P
          ∈ segDist2Set P x0 C := ⟨_, hct, ht'le, rfl⟩
      have step1 := e2least.2 memb
      rw [← triParam_s0 x0 B C ((1 - lam) * t + lam * tri_t P x0 B C),
        triD2_quad] at step1
      rw [hz] at hshr
      linarith [hmin2, step1, hshr]
    · have hs'le : (1 - lam) * s + lam * tri_s P x0 B C ≤ 1 := by linarith [hc3, hz]
      have memb : gjkVec3Dist2
          (segParam x0 B ((1 - lam) * s + lam * tri_s P x0 B C)) P
          ∈ segDist2Set P x0 B := ⟨_, hcs, hs'le, rfl⟩
      have step1 := e1least.2 memb
      rw [← triParam_t0 x0 B C ((1 - lam) * s + lam * tri_s P x0 B C),
        triD2_quad] at step1
      rw [hz] at hshr
      linarith [hmin1, step1, hshr]
    · have ht'le : (1 - lam) * t + lam * tri_t P x0 B C ≤ 1 := by linarith [hcs, hz]
      have memb : gjkVec3Dist2
          (segParam B C ((1 - lam) * t + lam * tri_t P x0 B C)) P
          ∈ segDist2Set P B C := ⟨_, hct, ht'le, rfl⟩
      have step1 := e3least.2 memb
      rw [← triParam_hyp x0 B C ((1 - lam) * t + lam * tri_t P x0 B C),
        triD2_quad] at step1
      have hs'eq : (1 - lam) * s + lam * tri_s P x0 B C =
          1 - ((1 - lam) * t + lam * tri_t P x0 B C) := by linarith [hz]
      rw [hs'eq] at hshr
      linarith [hmin3, step1, hshr]

/-- Minimality of the triangle routine over the closed triangle (zero
tolerance, non-degenerate triangle). -/
lemma tri_isLeast_core (P x0 B C : Vec3) (wW : Bool) (hnd : Nondeg x0 B C) :
    IsLeast (triDist2Set P x0 B C) (gjkVec3PointTriDist2 0 P x0 B C wW).1 := by
  by_cases hacc : triAccept 0 P x0 B C
  · exact tri_isLeast_accept P x0 B C wW hnd hacc
  · exact tri_isLeast_reject P x0 B C wW hnd hacc

/-! ## Witness correctness and path equality -/

lemma onSeg_x0B_onTri (x0 B C w : Vec3) (h : onSeg x0 B w) : onTri x0 B C w := by
  obtain ⟨τ, h0, h1, hw⟩ := h
  refine ⟨τ, 0, h0, le_refl 0, by linarith, ?_⟩
  rw [triParam_t0]
  exact hw

lemma onSeg_x0C_onTri (x0 B C w : Vec3) (h : onSeg x0 C w) : onTri x0 B C w := by
  obtain ⟨τ, h0, h1, hw⟩ := h
  refine ⟨0, τ, le_refl 0, h0, by linarith, ?_⟩
  rw [triParam_s0]
  exact hw

lemma onSeg_BC_onTri (x0 B C w : Vec3) (h : onSeg B C w) : onTri x0 B C w := by
  obtain ⟨τ, h0, h1, hw⟩ := h
  refine ⟨1 - τ, τ, by linarith, h0, by linarith, ?_⟩
  rw [triParam_hyp]
  exact hw

/-- Whenever the triangle routine is asked for a witness (zero tolerance),
the witness lies on the closed triangle and achieves the returned squared
distance. -/
lemma tri_witness_core (P x0 B C : Vec3) (wp : Vec3)
    (hwp : (gjkVec3PointTriDist2 0 P x0 B C true).2 = some wp) :
    onTri x0 B C wp ∧
      gjkVec3Dist2 wp P = (gjkVec3PointTriDist2 0 P x0 B C true).1 := by
  by_cases hacc : triAccept 0 P x0 B C
  · obtain ⟨hs0, hs1, ht0, ht1, hts⟩ := (triAccept_zero_iff P x0 B C).mp hacc
    rw [tri_eval_accept 0 P x0 B C true hacc] at hwp ⊢
    simp only [if_true, Option.some.injEq] at hwp
    subst hwp
    exact ⟨⟨tri_s P x0 B C, tri_t P x0 B C, hs0.le, ht0.le, by linarith, rfl⟩, rfl⟩
  · rcases tri_reject_pair 0 P x0 B C hacc with hpr | hpr | hpr
    · rw [hpr] at hwp ⊢
      obtain ⟨hseg, hdist⟩ := seg_witness_core 0 P x0 B wp hwp
      exact ⟨onSeg_x0B_onTri x0 B C wp hseg, hdist⟩
    · rw [hpr] at hwp ⊢
      obtain ⟨hseg, hdist⟩ := seg_witness_core 0 P x0 C wp hwp
      exact ⟨onSeg_x0C_onTri x0 B C wp hseg, hdist⟩
    · rw [hpr] at hwp ⊢
      obtain ⟨hseg, hdist⟩ := seg_witness_core 0 P B C wp hwp
      exact ⟨onSeg_BC_onTri x0 B C wp hseg, hdist⟩

/-- The returned squared distance of the triangle routine does not depend on
whether a witness was requested. -/
lemma tri_fst_agnostic (eps : ℚ) (P x0 B C : Vec3) (w1 w2 : Bool) :
    (gjkVec3PointTriDist2 eps P x0 B C w1).1 =
      (gjkVec3PointTriDist2 eps P x0 B C w2).1 := by
  by_cases hacc : triAccept eps P x0 B C
  · rw [tri_eval_accept eps P x0 B C w1 hacc, tri_eval_accept eps P x0 B C w2 hacc]
  · rw [tri_reject_fst eps P x0 B C w1 hacc, tri_reject_fst eps P x0 B C w2 hacc,
      seg_fst_agnostic eps P x0 B w1 w2, seg_fst_agnostic eps P x0 C w1 w2,
      seg_fst_agnostic eps P B C w1 w2]

/-- The triangle routine always returns a non-negative value (any tolerance,
any input). -/
lemma tri_fst_nonneg (eps : ℚ) (P x0 B C : Vec3) (wW : Bool) :
    0 ≤ (gjkVec3PointTriDist2 eps P x0 B C wW).1 := by
  by_cases hacc : triAccept eps P x0 B C
  · rw [tri_eval_accept eps P x0 B C wW hacc]
    exact dist2_nonneg _ P
  · rw [tri_reject_fst eps P x0 B C wW hacc]
    exact le_min (le_min (seg_fst_nonneg eps P x0 B wW) (seg_fst_nonneg eps P x0 C wW))
      (seg_fst_nonneg eps P B C wW)

/-! ## Vertex relabeling -/

lemma nondeg_iff_cross (x0 B C : Vec3) :
    Nondeg x0 B C ↔ gjkVec3Cross (gjkVec3Sub2 B x0) (gjkVec3Sub2 C x0) ≠ ⟨0, 0, 0⟩ := by
  constructor
  · rintro ⟨h1, _h2, hp⟩ hc
    exact hp (parallel_of_cross_eq_zero _ _ h1 hc)
  · intro hc
    refine ⟨?_, ?_, ?_⟩
    · intro h0
      apply hc
      rw [h0]
      rcases gjkVec3Sub2 C x0 with ⟨c1, c2, c3⟩
      simp only [gjkVec3Cross, Vec3.mk.injEq]
      refine ⟨by ring, by ring, by ring⟩
    · intro h0
      apply hc
      rw [h0]
      rcases gjkVec3Sub2 B x0 with ⟨c1, c2, c3⟩
      simp only [gjkVec3Cross, Vec3.mk.injEq]
      refine ⟨by ring, by ring, by ring⟩
    · rintro ⟨k, hk | hk⟩
      · apply hc
        rw [← hk]
        rcases gjkVec3Sub2 B x0 with ⟨c1, c2, c3⟩
        simp only [gjkVec3Cross, gjkVec3Scale, Vec3.mk.injEq]
        refine ⟨by ring, by ring, by ring⟩
      · apply hc
        rw [← hk]
        rcases gjkVec3Sub2 C x0 with ⟨c1, c2, c3⟩
        simp only [gjkVec3Cross, gjkVec3Scale, Vec3.mk.injEq]
        refine ⟨by ring, by ring, by ring⟩

lemma nondeg_swap (x0 B C : Vec3) (h : Nondeg x0 B C) : Nondeg x0 C B := by
  rw [nondeg_iff_cross] at h ⊢
  intro hc
  apply h
  rcases x0 with ⟨a1, a2, a3⟩
  rcases B with ⟨b1, b2, b3⟩
  rcases C with ⟨c1, c2, c3⟩
  simp only [gjkVec3Cross, gjkVec3Sub2, Vec3.mk.injEq] at hc ⊢
  refine ⟨by linarith [hc.1], by linarith [hc.2.1], by linarith [hc.2.2]⟩

lemma nondeg_rot (x0 B C : Vec3) (h : Nondeg x0 B C) : Nondeg B C x0 := by
  rw [nondeg_iff_cross] at h ⊢
  intro hc
  apply h
  rcases x0 with ⟨a1, a2, a3⟩
  rcases B with ⟨b1, b2, b3⟩
  rcases C with ⟨c1, c2, c3⟩
  simp only [gjkVec3Cross, gjkVec3Sub2, Vec3.mk.injEq] at hc ⊢
  refine ⟨by linarith [hc.1], by linarith [hc.2.1], by linarith [hc.2.2]⟩

lemma triParam_swap (x0 B C : Vec3) (s t : ℚ) :
    triParam x0 C B t s = triParam x0 B C s t := by
  rcases x0 with ⟨a1, a2, a3⟩
  rcases B with ⟨b1, b2, b3⟩
  rcases C with ⟨c1, c2, c3⟩
  simp only [triParam, gjkVec3Add, gjkVec3Scale, gjkVec3Sub2, Vec3.mk.injEq]
  refine ⟨by ring, by ring, by ring⟩

lemma triParam_rot (x0 B C : Vec3) (s t : ℚ) :
    triParam B C x0 t (1 - s - t) = triParam x0 B C s t := by
  rcases x0 with ⟨a1, a2, a3⟩
  rcases B with ⟨b1, b2, b3⟩
  rcases C with ⟨c1, c2, c3⟩
  simp only [triParam, gjkVec3Add, gjkVec3Scale, gjkVec3Sub2, Vec3.mk.injEq]
  refine ⟨by ring, by ring, by ring⟩

lemma triSet_swap (P x0 B C : Vec3) :
    triDist2Set P x0 C B = triDist2Set P x0 B C := by
  ext dv
  constructor
  · rintro ⟨s, t, hs, ht, hst, rfl⟩
    exact ⟨t, s, ht, hs, by linarith, by rw [triParam_swap x0 B C t s]⟩
  · rintro ⟨s, t, hs, ht, hst, rfl⟩
    exact ⟨t, s, ht, hs, by linarith, by rw [triParam_swap x0 C B t s]⟩

lemma triSet_rot (P x0 B C : Vec3) :
    triDist2Set P B C x0 = triDist2Set P x0 B C := by
  ext dv
  constructor
  · rintro ⟨s, t, hs, ht, hst, rfl⟩
    have hpt := triParam_rot x0 B C (1 - s - t) s
    have harg : 1 - (1 - s - t) - s = t := by ring
    rw [harg] at hpt
    exact ⟨1 - s - t, s, by linarith, hs, by linarith, by rw [hpt]⟩
  · rintro ⟨s, t, hs, ht, hst, rfl⟩
    exact ⟨t, 1 - s - t, ht, by linarith, by linarith, by rw [triParam_rot x0 B C s t]⟩

/-! ## Claim theorems -/

/-- C1: for every point `P` and segment endpoints `x0`, `b` with `b ≠ x0`
(tolerance zero in the exact-arithmetic model), `gjkVec3PointSegmentDist2`
returns the minimum over `t ∈ [0,1]` of the squared distance from `P` to
`x0 + t·(b−x0)`, and a requested witness is a point of the segment achieving
that minimum. -/
theorem C1_segment_min (eps : ℚ) (P x0 b : Vec3) (wW : Bool)
    (heps : eps = 0) (hne : b ≠ x0) :
    IsLeast (segDist2Set P x0 b) (gjkVec3PointSegmentDist2 eps P x0 b wW).1 ∧
      ∀ wp : Vec3, (gjkVec3PointSegmentDist2 eps P x0 b true).2 = some wp →
        onSeg x0 b wp ∧
          gjkVec3Dist2 wp P = (gjkVec3PointSegmentDist2 eps P x0 b true).1 := by
  subst heps
  exact ⟨seg_isLeast_core P x0 b wW hne,
    fun wp hwp => seg_witness_core 0 P x0 b wp hwp⟩

theorem C1_segment_min_witness :
    IsLeast (segDist2Set ⟨5, 3, 0⟩ ⟨0, 0, 0⟩ ⟨10, 0, 0⟩)
      (gjkVec3PointSegmentDist2 0 ⟨5, 3, 0⟩ ⟨0, 0, 0⟩ ⟨10, 0, 0⟩ false).1 ∧
      ∀ wp : Vec3,
        (gjkVec3PointSegmentDist2 0 ⟨5, 3, 0⟩ ⟨0, 0, 0⟩ ⟨10, 0, 0⟩ true).2 = some wp →
        onSeg ⟨0, 0, 0⟩ ⟨10, 0, 0⟩ wp ∧
          gjkVec3Dist2 wp ⟨5, 3, 0⟩ =
            (gjkVec3PointSegmentDist2 0 ⟨5, 3, 0⟩ ⟨0, 0, 0⟩ ⟨10, 0, 0⟩ true).1 :=
  C1_segment_min 0 ⟨5, 3, 0⟩ ⟨0, 0, 0⟩ ⟨10, 0, 0⟩ false rfl
    (by norm_num [Vec3.mk.injEq])

/-- The unit right triangle used by several witnesses is non-degenerate. -/
lemma nondeg_unit : Nondeg ⟨0, 0, 0⟩ ⟨1, 0, 0⟩ ⟨0, 1, 0⟩ := by
  refine ⟨by norm_num [gjkVec3Sub2, Vec3.mk.injEq],
    by norm_num [gjkVec3Sub2, Vec3.mk.injEq], ?_⟩
  rintro ⟨k, hk | hk⟩
  · have hy := congrArg Vec3.y hk
    simp [gjkVec3Scale, gjkVec3Sub2] at hy
  · have hx := congrArg Vec3.x hk
    simp [gjkVec3Scale, gjkVec3Sub2] at hx

/-- C2: for every point `P` and non-degenerate triangle `(x0, B, C)`
(tolerance zero in the exact-arithmetic model), `gjkVec3PointTriDist2`
returns the minimum squared distance from `P` to the closed triangle
`{x0 + s·(B−x0) + t·(C−x0) : s,t ≥ 0, s+t ≤ 1}`, and a requested witness is
a point of the triangle achieving that minimum. -/
theorem C2_triangle_min (eps : ℚ) (P x0 B C : Vec3) (wW : Bool)
    (heps : eps = 0) (hnd : Nondeg x0 B C) :
    IsLeast (triDist2Set P x0 B C) (gjkVec3PointTriDist2 eps P x0 B C wW).1 ∧
      ∀ wp : Vec3, (gjkVec3PointTriDist2 eps P x0 B C true).2 = some wp →
        onTri x0 B C wp ∧
          gjkVec3Dist2 wp P = (gjkVec3PointTriDist2 eps P x0 B C true).1 := by
  subst heps
  exact ⟨tri_isLeast_core P x0 B C wW hnd,
    fun wp hwp => tri_witness_core P x0 B C wp hwp⟩

theorem C2_triangle_min_witness :
    IsLeast (triDist2Set ⟨2, 2, 0⟩ ⟨0, 0, 0⟩ ⟨1, 0, 0⟩ ⟨0, 1, 0⟩)
      (gjkVec3PointTriDist2 0 ⟨2, 2, 0⟩ ⟨0, 0, 0⟩ ⟨1, 0, 0⟩ ⟨0, 1, 0⟩ true).1 ∧
      ∀ wp : Vec3,
        (gjkVec3PointTriDist2 0 ⟨2, 2, 0⟩ ⟨0, 0, 0⟩ ⟨1, 0, 0⟩ ⟨0, 1, 0⟩ true).2 =
          some wp →
        onTri ⟨0, 0, 0⟩ ⟨1, 0, 0⟩ ⟨0, 1, 0⟩ wp ∧
          gjkVec3Dist2 wp ⟨2, 2, 0⟩ =
            (gjkVec3PointTriDist2 0 ⟨2, 2, 0⟩ ⟨0, 0, 0⟩ ⟨1, 0, 0⟩ ⟨0, 1, 0⟩ true).1 :=
  C2_triangle_min 0 ⟨2, 2, 0⟩ ⟨0, 0, 0⟩ ⟨1, 0, 0⟩ ⟨0, 1, 0⟩ true rfl nondeg_unit

/-- C3: whenever the computed plane minimizer `(s, t)` is rejected by the
epsilon-aware acceptance test, the triangle routine returns the minimum of
the three point–segment squared distances to the edges `(x0,B)`, `(x0,C)`,
`(B,C)`, and a requested witness is the witness of an edge achieving that
minimum. -/
theorem C3_edge_fallback (eps : ℚ) (P x0 B C : Vec3) (wW : Bool)
    (hrej : ¬ triAccept eps P x0 B C) :
    (gjkVec3PointTriDist2 eps P x0 B C wW).1 =
      min (min (gjkVec3PointSegmentDist2 eps P x0 B wW).1
        (gjkVec3PointSegmentDist2 eps P x0 C wW).1)
        (gjkVec3PointSegmentDist2 eps P B C wW).1 ∧
      ∀ wp : Vec3, (gjkVec3PointTriDist2 eps P x0 B C true).2 = some wp →
        ((gjkVec3PointSegmentDist2 eps P x0 B true).1 =
            (gjkVec3PointTriDist2 eps P x0 B C true).1 ∧
          (gjkVec3PointSegmentDist2 eps P x0 B true).2 = some wp) ∨
        ((gjkVec3PointSegmentDist2 eps P x0 C true).1 =
            (gjkVec3PointTriDist2 eps P x0 B C true).1 ∧
          (gjkVec3PointSegmentDist2 eps P x0 C true).2 = some wp) ∨
        ((gjkVec3PointSegmentDist2 eps P B C true).1 =
            (gjkVec3PointTriDist2 eps P x0 B C true).1 ∧
          (gjkVec3PointSegmentDist2 eps P B C true).2 = some wp) := by
  constructor
  · exact tri_reject_fst eps P x0 B C wW hrej
  · intro wp hwp
    rcases tri_reject_pair eps P x0 B C hrej with hpr | hpr | hpr
    · refine Or.inl ⟨(congrArg Prod.fst hpr).symm, ?_⟩
      rw [hpr] at hwp
      exact hwp
    · refine Or.inr (Or.inl ⟨(congrArg Prod.fst hpr).symm, ?_⟩)
      rw [hpr] at hwp
      exact hwp
    · refine Or.inr (Or.inr ⟨(congrArg Prod.fst hpr).symm, ?_⟩)
      rw [hpr] at hwp
      exact hwp

/-- C4: on every valid input, the squared distance returned with a witness
slot equals the squared distance returned without one, although the two call
shapes take different arithmetic paths. -/
theorem C4_path_equality (eps : ℚ) (P x0 b B C : Vec3)
    (hne : b ≠ x0) (hnd : Nondeg x0 B C) :
    (gjkVec3PointSegmentDist2 eps P x0 b true).1 =
        (gjkVec3PointSegmentDist2 eps P x0 b false).1 ∧
      (gjkVec3PointTriDist2 eps P x0 B C true).1 =
        (gjkVec3PointTriDist2 eps P x0 B C false).1 :=
  ⟨seg_fst_agnostic eps P x0 b true false, tri_fst_agnostic eps P x0 B C true false⟩

theorem C4_path_equality_witness :
    (gjkVec3PointSegmentDist2 0 ⟨5, 3, 0⟩ ⟨0, 0, 0⟩ ⟨10, 0, 0⟩ true).1 =
        (gjkVec3PointSegmentDist2 0 ⟨5, 3, 0⟩ ⟨0, 0, 0⟩ ⟨10, 0, 0⟩ false).1 ∧
      (gjkVec3PointTriDist2 0 ⟨5, 3, 0⟩ ⟨0, 0, 0⟩ ⟨1, 0, 0⟩ ⟨0, 1, 0⟩ true).1 =
        (gjkVec3PointTriDist2 0 ⟨5, 3, 0⟩ ⟨0, 0, 0⟩ ⟨1, 0, 0⟩ ⟨0, 1, 0⟩ false).1 :=
  C4_path_equality 0 ⟨5, 3, 0⟩ ⟨0, 0, 0⟩ ⟨10, 0, 0⟩ ⟨1, 0, 0⟩ ⟨0, 1, 0⟩
    (by norm_num [Vec3.mk.injEq]) nondeg_unit

/-- C5: under the stated preconditions, every divisor used by the two
routines — `len2 d` at line 61, `w·v − r²` at line 125 and `w` at line 126 —
is nonzero, so the divisions are well defined on the valid input domain. -/
theorem C5_divisors_nonzero (P x0 b B C : Vec3) (hne : b ≠ x0)
    (hnd : Nondeg x0 B C) :
    gjkVec3Len2 (gjkVec3Sub2 b x0) ≠ 0 ∧
      gjkVec3Dot (gjkVec3Sub2 C x0) (gjkVec3Sub2 C x0) *
          gjkVec3Dot (gjkVec3Sub2 B x0) (gjkVec3Sub2 B x0) -
        gjkVec3Dot (gjkVec3Sub2 B x0) (gjkVec3Sub2 C x0) *
          gjkVec3Dot (gjkVec3Sub2 B x0) (gjkVec3Sub2 C x0) ≠ 0 ∧
      gjkVec3Dot (gjkVec3Sub2 C x0) (gjkVec3Sub2 C x0) ≠ 0 :=
  ⟨(len2_pos_of_ne _ (fun hc => hne ((sub2_eq_zero_iff b x0).mp hc))).ne',
    (gram_pos (gjkVec3Sub2 B x0) (gjkVec3Sub2 C x0) hnd.1 hnd.2.2).ne',
    (len2_pos_of_ne _ hnd.2.1).ne'⟩

theorem C5_divisors_nonzero_witness :
    gjkVec3Len2 (gjkVec3Sub2 ⟨10, 0, 0⟩ ⟨0, 0, 0⟩) ≠ 0 ∧
      gjkVec3Dot (gjkVec3Sub2 ⟨0, 1, 0⟩ ⟨0, 0, 0⟩) (gjkVec3Sub2 ⟨0, 1, 0⟩ ⟨0, 0, 0⟩) *
          gjkVec3Dot (gjkVec3Sub2 ⟨1, 0, 0⟩ ⟨0, 0, 0⟩) (gjkVec3Sub2 ⟨1, 0, 0⟩ ⟨0, 0, 0⟩) -
        gjkVec3Dot (gjkVec3Sub2 ⟨1, 0, 0⟩ ⟨0, 0, 0⟩) (gjkVec3Sub2 ⟨0, 1, 0⟩ ⟨0, 0, 0⟩) *
          gjkVec3Dot (gjkVec3Sub2 ⟨1, 0, 0⟩ ⟨0, 0, 0⟩) (gjkVec3Sub2 ⟨0, 1, 0⟩ ⟨0, 0, 0⟩) ≠ 0 ∧
      gjkVec3Dot (gjkVec3Sub2 ⟨0, 1, 0⟩ ⟨0, 0, 0⟩) (gjkVec3Sub2 ⟨0, 1, 0⟩ ⟨0, 0, 0⟩) ≠ 0 :=
  C5_divisors_nonzero ⟨5, 3, 0⟩ ⟨0, 0, 0⟩ ⟨10, 0, 0⟩ ⟨1, 0, 0⟩ ⟨0, 1, 0⟩
    (by norm_num [Vec3.mk.injEq]) nondeg_unit

/-- C6: on every valid input, the squared distance returned by each routine
is non-negative (in particular the no-witness quadratic-form value). -/
theorem C6_nonneg (eps : ℚ) (P x0 b B C : Vec3) (w1 w2 : Bool)
    (hne : b ≠ x0) (hnd : Nondeg x0 B C) :
    0 ≤ (gjkVec3PointSegmentDist2 eps P x0 b w1).1 ∧
      0 ≤ (gjkVec3PointTriDist2 eps P x0 B C w2).1 :=
  ⟨seg_fst_nonneg eps P x0 b w1, tri_fst_nonneg eps P x0 B C w2⟩

theorem C6_nonneg_witness :
    0 ≤ (gjkVec3PointSegmentDist2 0 ⟨5, 3, 0⟩ ⟨0, 0, 0⟩ ⟨10, 0, 0⟩ false).1 ∧
      0 ≤ (gjkVec3PointTriDist2 0 ⟨5, 3, 0⟩ ⟨0, 0, 0⟩ ⟨1, 0, 0⟩ ⟨0, 1, 0⟩ false).1 :=
  C6_nonneg 0 ⟨5, 3, 0⟩ ⟨0, 0, 0⟩ ⟨10, 0, 0⟩ ⟨1, 0, 0⟩ ⟨0, 1, 0⟩ false false
    (by norm_num [Vec3.mk.injEq]) nondeg_unit

/-- C7: for the segment `x0=(0,0,0)`, `b=(10,0,0)`, querying `P=(-5,0,0)`
yields squared distance 25 with witness `(0,0,0)` (below-0 clamp), and
querying `P=(15,0,0)` yields 25 with witness `(10,0,0)` (above-1 clamp). -/
theorem C7_endpoint_clamp (eps : ℚ) (heps : eps = 0) :
    gjkVec3PointSegmentDist2 eps ⟨-5, 0, 0⟩ ⟨0, 0, 0⟩ ⟨10, 0, 0⟩ true =
        (25, some ⟨0, 0, 0⟩) ∧
      gjkVec3PointSegmentDist2 eps ⟨15, 0, 0⟩ ⟨0, 0, 0⟩ ⟨10, 0, 0⟩ true =
        (25, some ⟨10, 0, 0⟩) := by
  subst heps
  constructor
  · have ht : seg_t ⟨-5, 0, 0⟩ ⟨0, 0, 0⟩ ⟨10, 0, 0⟩ = -1/2 := by
      norm_num [seg_t, gjkVec3Sub2, gjkVec3Dot, gjkVec3Len2]
    show __gjkVec3PointSegmentDist2 0 ⟨-5, 0, 0⟩ ⟨0, 0, 0⟩ ⟨10, 0, 0⟩ true =
      (25, some ⟨0, 0, 0⟩)
    rw [seg_eval_low 0 ⟨-5, 0, 0⟩ ⟨0, 0, 0⟩ ⟨10, 0, 0⟩ true
      (Or.inl (by rw [ht]; norm_num))]
    norm_num [gjkVec3Dist2, gjkVec3Len2, gjkVec3Sub2, gjkVec3Dot, Prod.ext_iff]
  · have ht : seg_t ⟨15, 0, 0⟩ ⟨0, 0, 0⟩ ⟨10, 0, 0⟩ = 3/2 := by
      norm_num [seg_t, gjkVec3Sub2, gjkVec3Dot, gjkVec3Len2]
    show __gjkVec3PointSegmentDist2 0 ⟨15, 0, 0⟩ ⟨0, 0, 0⟩ ⟨10, 0, 0⟩ true =
      (25, some ⟨10, 0, 0⟩)
    rw [seg_eval_high 0 ⟨15, 0, 0⟩ ⟨0, 0, 0⟩ ⟨10, 0, 0⟩ true
      (not_or.mpr ⟨by rw [ht]; norm_num, not_gjkIsZero_zero _⟩)
      (Or.inl (by rw [ht]; norm_num))]
    norm_num [gjkVec3Dist2, gjkVec3Len2, gjkVec3Sub2, gjkVec3Dot, Prod.ext_iff]

/-- C8: for the unit right triangle and `P=(1/4,1/4,2)`, the triangle routine
takes the in-triangle acceptance branch and returns squared distance 4 with
witness `(1/4,1/4,0)` (any tolerance: the strict inequalities hold). -/
theorem C8_interior_hit (eps : ℚ) (wW : Bool) :
    (gjkVec3PointTriDist2 eps ⟨1/4, 1/4, 2⟩ ⟨0, 0, 0⟩ ⟨1, 0, 0⟩ ⟨0, 1, 0⟩ wW).1 = 4 ∧
      (gjkVec3PointTriDist2 eps ⟨1/4, 1/4, 2⟩ ⟨0, 0, 0⟩ ⟨1, 0, 0⟩ ⟨0, 1, 0⟩ true).2 =
        some ⟨1/4, 1/4, 0⟩ := by
  have hs : tri_s ⟨1/4, 1/4, 2⟩ ⟨0, 0, 0⟩ ⟨1, 0, 0⟩ ⟨0, 1, 0⟩ = 1/4 := by
    norm_num [tri_s, gjkVec3Sub2, gjkVec3Dot]
  have ht : tri_t ⟨1/4, 1/4, 2⟩ ⟨0, 0, 0⟩ ⟨1, 0, 0⟩ ⟨0, 1, 0⟩ = 1/4 := by
    norm_num [tri_t, tri_s, gjkVec3Sub2, gjkVec3Dot]
  have hacc : triAccept eps ⟨1/4, 1/4, 2⟩ ⟨0, 0, 0⟩ ⟨1, 0, 0⟩ ⟨0, 1, 0⟩ := by
    simp only [triAccept]
    rw [hs, ht]
    exact ⟨Or.inr (by norm_num), Or.inr (by norm_num), Or.inr (by norm_num),
      Or.inr (by norm_num), Or.inr (by norm_num)⟩
  constructor
  · rw [tri_eval_accept eps ⟨1/4, 1/4, 2⟩ ⟨0, 0, 0⟩ ⟨1, 0, 0⟩ ⟨0, 1, 0⟩ wW hacc]
    rw [hs, ht]
    norm_num [triParam, gjkVec3Add, gjkVec3Scale, gjkVec3Sub2, gjkVec3Dist2,
      gjkVec3Len2, gjkVec3Dot]
  · rw [tri_eval_accept eps ⟨1/4, 1/4, 2⟩ ⟨0, 0, 0⟩ ⟨1, 0, 0⟩ ⟨0, 1, 0⟩ true hacc]
    rw [hs, ht]
    norm_num [triParam, gjkVec3Add, gjkVec3Scale, gjkVec3Sub2, Vec3.mk.injEq]

theorem C7_endpoint_clamp_witness :
    gjkVec3PointSegmentDist2 0 ⟨-5, 0, 0⟩ ⟨0, 0, 0⟩ ⟨10, 0, 0⟩ true =
        (25, some ⟨0, 0, 0⟩) ∧
      gjkVec3PointSegmentDist2 0 ⟨15, 0, 0⟩ ⟨0, 0, 0⟩ ⟨10, 0, 0⟩ true =
        (25, some ⟨10, 0, 0⟩) :=
  C7_endpoint_clamp 0 rfl

theorem C3_edge_fallback_witness :
    (gjkVec3PointTriDist2 0 ⟨2, 2, 0⟩ ⟨0, 0, 0⟩ ⟨1, 0, 0⟩ ⟨0, 1, 0⟩ false).1 =
      min (min (gjkVec3PointSegmentDist2 0 ⟨2, 2, 0⟩ ⟨0, 0, 0⟩ ⟨1, 0, 0⟩ false).1
        (gjkVec3PointSegmentDist2 0 ⟨2, 2, 0⟩ ⟨0, 0, 0⟩ ⟨0, 1, 0⟩ false).1)
        (gjkVec3PointSegmentDist2 0 ⟨2, 2, 0⟩ ⟨1, 0, 0⟩ ⟨0, 1, 0⟩ false).1 ∧
      ∀ wp : Vec3,
        (gjkVec3PointTriDist2 0 ⟨2, 2, 0⟩ ⟨0, 0, 0⟩ ⟨1, 0, 0⟩ ⟨0, 1, 0⟩ true).2 =
          some wp →
        ((gjkVec3PointSegmentDist2 0 ⟨2, 2, 0⟩ ⟨0, 0, 0⟩ ⟨1, 0, 0⟩ true).1 =
            (gjkVec3PointTriDist2 0 ⟨2, 2, 0⟩ ⟨0, 0, 0⟩ ⟨1, 0, 0⟩ ⟨0, 1, 0⟩ true).1 ∧
          (gjkVec3PointSegmentDist2 0 ⟨2, 2, 0⟩ ⟨0, 0, 0⟩ ⟨1, 0, 0⟩ true).2 = some wp) ∨
        ((gjkVec3PointSegmentDist2 0 ⟨2, 2, 0⟩ ⟨0, 0, 0⟩ ⟨0, 1, 0⟩ true).1 =
            (gjkVec3PointTriDist2 0 ⟨2, 2, 0⟩ ⟨0, 0, 0⟩ ⟨1, 0, 0⟩ ⟨0, 1, 0⟩ true).1 ∧
          (gjkVec3PointSegmentDist2 0 ⟨2, 2, 0⟩ ⟨0, 0, 0⟩ ⟨0, 1, 0⟩ true).2 = some wp) ∨
        ((gjkVec3PointSegmentDist2 0 ⟨2, 2, 0⟩ ⟨1, 0, 0⟩ ⟨0, 1, 0⟩ true).1 =
            (gjkVec3PointTriDist2 0 ⟨2, 2, 0⟩ ⟨0, 0, 0⟩ ⟨1, 0, 0⟩ ⟨0, 1, 0⟩ true).1 ∧
          (gjkVec3PointSegmentDist2 0 ⟨2, 2, 0⟩ ⟨1, 0, 0⟩ ⟨0, 1, 0⟩ true).2 = some wp) :=
  C3_edge_fallback 0 ⟨2, 2, 0⟩ ⟨0, 0, 0⟩ ⟨1, 0, 0⟩ ⟨0, 1, 0⟩ false
    (fun h => by
      have hs1 := ((triAccept_zero_iff ⟨2, 2, 0⟩ ⟨0, 0, 0⟩ ⟨1, 0, 0⟩ ⟨0, 1, 0⟩).mp h).2.1
      have hs : tri_s ⟨2, 2, 0⟩ ⟨0, 0, 0⟩ ⟨1, 0, 0⟩ ⟨0, 1, 0⟩ = 2 := by
        norm_num [tri_s, gjkVec3Sub2, gjkVec3Dot]
      rw [hs] at hs1
      norm_num at hs1)

/-- C9: relabeling the vertices of a non-degenerate triangle (any of the six
permutations, zero tolerance) leaves the returned squared distance
unchanged. -/
theorem C9_relabel_invariance (eps : ℚ) (P x0 B C x0' B' C' : Vec3)
    (w w' : Bool) (heps : eps = 0) (hnd : Nondeg x0 B C)
    (hperm : (x0' = x0 ∧ B' = B ∧ C' = C) ∨ (x0' = x0 ∧ B' = C ∧ C' = B) ∨
      (x0' = B ∧ B' = C ∧ C' = x0) ∨ (x0' = B ∧ B' = x0 ∧ C' = C) ∨
      (x0' = C ∧ B' = x0 ∧ C' = B) ∨ (x0' = C ∧ B' = B ∧ C' = x0)) :
    (gjkVec3PointTriDist2 eps P x0' B' C' w').1 =
      (gjkVec3PointTriDist2 eps P x0 B C w).1 := by
  subst heps
  have horig := tri_isLeast_core P x0 B C w hnd
  rcases hperm with ⟨h1, h2, h3⟩ | ⟨h1, h2, h3⟩ | ⟨h1, h2, h3⟩ | ⟨h1, h2, h3⟩ |
    ⟨h1, h2, h3⟩ | ⟨h1, h2, h3⟩
  · rw [h1, h2, h3]
    exact (tri_isLeast_core P x0 B C w' hnd).unique horig
  · rw [h1, h2, h3]
    have hpl := tri_isLeast_core P x0 C B w' (nondeg_swap x0 B C hnd)
    rw [triSet_swap P x0 B C] at hpl
    exact hpl.unique horig
  · rw [h1, h2, h3]
    have hpl := tri_isLeast_core P B C x0 w' (nondeg_rot x0 B C hnd)
    rw [triSet_rot P x0 B C] at hpl
    exact hpl.unique horig
  · rw [h1, h2, h3]
    have hpl := tri_isLeast_core P B x0 C w'
      (nondeg_swap B C x0 (nondeg_rot x0 B C hnd))
    rw [triSet_swap P B C x0, triSet_rot P x0 B C] at hpl
    exact hpl.unique horig
  · rw [h1, h2, h3]
    have hpl := tri_isLeast_core P C x0 B w'
      (nondeg_rot B C x0 (nondeg_rot x0 B C hnd))
    rw [triSet_rot P B C x0, triSet_rot P x0 B C] at hpl
    exact hpl.unique horig
  · rw [h1, h2, h3]
    have hpl := tri_isLeast_core P C B x0 w'
      (nondeg_swap C x0 B (nondeg_rot B C x0 (nondeg_rot x0 B C hnd)))
    rw [triSet_swap P C x0 B, triSet_rot P B C x0, triSet_rot P x0 B C] at hpl
    exact hpl.unique horig

theorem C9_relabel_invariance_witness :
    (gjkVec3PointTriDist2 0 ⟨2, 2, 0⟩ ⟨1, 0, 0⟩ ⟨0, 1, 0⟩ ⟨0, 0, 0⟩ true).1 =
      (gjkVec3PointTriDist2 0 ⟨2, 2, 0⟩ ⟨0, 0, 0⟩ ⟨1, 0, 0⟩ ⟨0, 1, 0⟩ false).1 :=
  C9_relabel_invariance 0 ⟨2, 2, 0⟩ ⟨0, 0, 0⟩ ⟨1, 0, 0⟩ ⟨0, 1, 0⟩
    ⟨1, 0, 0⟩ ⟨0, 1, 0⟩ ⟨0, 0, 0⟩ false true rfl nondeg_unit
    (Or.inr (Or.inr (Or.inl ⟨rfl, rfl, rfl⟩)))

/-- C10 (implicit): when a witness is requested and the preconditions hold
(zero tolerance), each routine returns exactly the squared distance between
`P` and the witness it wrote, and that witness lies on the queried
primitive. -/
theorem C10_witness_consistency (eps : ℚ) (P x0 b B C : Vec3) (heps : eps = 0)
    (hne : b ≠ x0) (hnd : Nondeg x0 B C) :
    (∀ wp : Vec3, (gjkVec3PointSegmentDist2 eps P x0 b true).2 = some wp →
        (gjkVec3PointSegmentDist2 eps P x0 b true).1 = gjkVec3Dist2 P wp ∧
          onSeg x0 b wp) ∧
      ∀ wp : Vec3, (gjkVec3PointTriDist2 eps P x0 B C true).2 = some wp →
        (gjkVec3PointTriDist2 eps P x0 B C true).1 = gjkVec3Dist2 P wp ∧
          onTri x0 B C wp := by
  subst heps
  constructor
  · intro wp hwp
    obtain ⟨hon, hd⟩ := seg_witness_core 0 P x0 b wp hwp
    refine ⟨?_, hon⟩
    rw [dist2_symm P wp]
    exact hd.symm
  · intro wp hwp
    obtain ⟨hon, hd⟩ := tri_witness_core P x0 B C wp hwp
    refine ⟨?_, hon⟩
    rw [dist2_symm P wp]
    exact hd.symm

theorem C10_witness_consistency_witness :
    (∀ wp : Vec3,
        (gjkVec3PointSegmentDist2 0 ⟨5, 3, 0⟩ ⟨0, 0, 0⟩ ⟨10, 0, 0⟩ true).2 = some wp →
        (gjkVec3PointSegmentDist2 0 ⟨5, 3, 0⟩ ⟨0, 0, 0⟩ ⟨10, 0, 0⟩ true).1 =
            gjkVec3Dist2 ⟨5, 3, 0⟩ wp ∧
          onSeg ⟨0, 0, 0⟩ ⟨10, 0, 0⟩ wp) ∧
      ∀ wp : Vec3,
        (gjkVec3PointTriDist2 0 ⟨5, 3, 0⟩ ⟨0, 0, 0⟩ ⟨1, 0, 0⟩ ⟨0, 1, 0⟩ true).2 =
          some wp →
        (gjkVec3PointTriDist2 0 ⟨5, 3, 0⟩ ⟨0, 0, 0⟩ ⟨1, 0, 0⟩ ⟨0, 1, 0⟩ true).1 =
            gjkVec3Dist2 ⟨5, 3, 0⟩ wp ∧
          onTri ⟨0, 0, 0⟩ ⟨1, 0, 0⟩ ⟨0, 1, 0⟩ wp :=
  C10_witness_consistency 0 ⟨5, 3, 0⟩ ⟨0, 0, 0⟩ ⟨10, 0, 0⟩ ⟨1, 0, 0⟩ ⟨0, 1, 0⟩ rfl
    (by norm_num [Vec3.mk.injEq]) nondeg_unit

theorem C8_interior_hit_witness :
    (gjkVec3PointTriDist2 0 ⟨1/4, 1/4, 2⟩ ⟨0, 0, 0⟩ ⟨1, 0, 0⟩ ⟨0, 1, 0⟩ false).1 = 4 ∧
      (gjkVec3PointTriDist2 0 ⟨1/4, 1/4, 2⟩ ⟨0, 0, 0⟩ ⟨1, 0, 0⟩ ⟨0, 1, 0⟩ true).2 =
        some ⟨1/4, 1/4, 0⟩ :=
  C8_interior_hit 0 false
